import Mathlib

/-!
Verification development for the mdterm terminal renderer.

The Rust sources are shallowly embedded here:
* strings are `List Char`;
* byte buffers are `List Nat` (each entry a byte value);
* `usize` arithmetic is `Nat` (Rust `a - b` on `usize` appears in the source
  only in branches where `b <= a`, so truncated subtraction is exact there);
* the glyph source (`FontRenderer` as consumed by `TerminalRenderer`) is
  modelled as a pure `FontModel`, since at the fixed pixel size `8.0` the
  renderer only observes `rasterize_char` and `get_char_advance`, both
  deterministic functions of the character (the cache in `font.rs` only
  memoizes; its statefulness is modelled separately by `FontRenderer` below).
-/

set_option autoImplicit false

namespace Mdterm

/-- Helper predicate: a non-whitespace character (Rust `split_whitespace`
keeps maximal runs of characters that are not whitespace). -/
def notWS (c : Char) : Bool := !c.isWhitespace

/-- Accumulator-based splitter: `acc` holds the characters of the current
word in reverse order. -/
def splitWSAux : List Char → List Char → List (List Char)
  | [], acc => if acc = [] then [] else [acc.reverse]
  | c :: cs, acc =>
    if c.isWhitespace then
      if acc = [] then splitWSAux cs []
      else acc.reverse :: splitWSAux cs []
    else splitWSAux cs (c :: acc)

/-- Embedding of Rust `str::split_whitespace` (terminal.rs line 37):
split the character list into maximal runs of non-whitespace characters,
discarding all whitespace. -/
def splitWhitespace (text : List Char) : List (List Char) :=
  splitWSAux text []

/-- Pixel width of a word (terminal.rs lines 50-52): sum over its characters
of the advance width, clamped to a minimum of 1. -/
def wordWidth (adv : Char → Nat) (w : List Char) : Nat :=
  (w.map (fun c => max (adv c) 1)).sum

/-- Embedding of the word-wrap loop of `TerminalRenderer::render_text`
(terminal.rs lines 45-69).  A line is kept as its list of words; the Rust
code stores the space-joined string, which is recovered by `joinWords`.
`cur` is the current line's words and `curW` its accumulated pixel width. -/
def wrapWords (adv : Char → Nat) (spaceW maxW : Nat) :
    List (List Char) → List (List Char) → Nat → List (List (List Char))
  | [], cur, _ => if cur = [] then [] else [cur]
  | w :: ws, cur, curW =>
    if cur = [] then
      wrapWords adv spaceW maxW ws [w] (wordWidth adv w)
    else if curW + spaceW + wordWidth adv w ≤ maxW then
      wrapWords adv spaceW maxW ws (cur ++ [w]) (curW + spaceW + wordWidth adv w)
    else
      cur :: wrapWords adv spaceW maxW ws [w] (wordWidth adv w)

/-- Rust `current_line.push(' '); current_line.push_str(word)`: the words of a
wrapped line joined by single spaces. -/
def joinWords : List (List Char) → List Char
  | [] => []
  | [w] => w
  | w :: ws => w ++ ' ' :: joinWords ws

/-- The word wrapper of `render_text` (terminal.rs lines 36-69) as a function
from the input text to the wrapped lines (each line a list of words).
The space advance is clamped to a minimum of 4 (line 43). -/
def wrapText (adv : Char → Nat) (maxW : Nat) (text : List Char) : List (List (List Char)) :=
  wrapWords adv (max (adv ' ') 4) maxW (splitWhitespace text) [] 0

/-- Pixel width of a whole line: word widths plus one space width per gap. -/
def lineWidth (adv : Char → Nat) (spaceW : Nat) (l : List (List Char)) : Nat :=
  (l.map (wordWidth adv)).sum + spaceW * (l.length - 1)

/-- The glyph source consumed by `TerminalRenderer` (font.rs, observed at the
fixed pixel size 8.0): `rasterize` returns `(bitmap, width, height)`
(`rasterize_char`), `advanceOf` the advance width (`get_char_advance`), and
`hasFont` whether a font resource is loaded (`has_font`). -/
structure FontModel where
  hasFont : Bool
  rasterize : Char → List Nat × Nat × Nat
  advanceOf : Char → Nat

/-- A rasterized glyph record (terminal.rs lines 84-89). -/
structure Glyph where
  bitmap : List Nat
  width : Nat
  height : Nat
  advance : Nat

/-- Building one glyph record in the measuring loop of `render_line_pixels`
(terminal.rs lines 95-103): the advance is the font advance, clamped below by
the bitmap width if positive and by 4 otherwise. -/
def glyphOf (fm : FontModel) (ch : Char) : Glyph :=
  ⟨(fm.rasterize ch).1, (fm.rasterize ch).2.1, (fm.rasterize ch).2.2,
    max (fm.advanceOf ch) (if 0 < (fm.rasterize ch).2.1 then (fm.rasterize ch).2.1 else 4)⟩

/-- The glyphs of a line, in left-to-right scalar order. -/
def lineGlyphs (fm : FontModel) (text : List Char) : List Glyph :=
  text.map (glyphOf fm)

/-- `total_width`: accumulated advances of the line's glyphs. -/
def lineTotalWidth (fm : FontModel) (text : List Char) : Nat :=
  ((lineGlyphs fm text).map Glyph.advance).sum

/-- `max_height`: the tallest glyph of the line. -/
def lineMaxHeight (fm : FontModel) (text : List Char) : Nat :=
  ((lineGlyphs fm text).map Glyph.height).foldl max 0

/-- One guarded pixel write of the glyph placement loop
(terminal.rs lines 125-137). -/
def writePixel (renderWidth maxHeight : Nat) (g : Glyph) (xOffset yOffset : Nat)
    (px : List Nat) (gy gx : Nat) : List Nat :=
  let srcIdx := gy * g.width + gx
  let dstX := xOffset + gx
  let dstY := yOffset + gy
  if dstX < renderWidth ∧ dstY < maxHeight then
    if srcIdx < g.bitmap.length then
      px.set (dstY * renderWidth + dstX) (g.bitmap.getD srcIdx 0)
    else px
  else px

/-- Placing one glyph, bottom-aligned (terminal.rs lines 120-137): `yOffset`
is `max_height - glyph.height` (0 when the glyph is the tallest). -/
def placeGlyph (renderWidth maxHeight xOffset : Nat) (g : Glyph) (px : List Nat) : List Nat :=
  (List.range g.height).foldl (fun acc gy =>
    (List.range g.width).foldl (fun acc2 gx =>
      writePixel renderWidth maxHeight g xOffset (maxHeight - g.height) acc2 gy gx) acc) px

/-- The glyph placement loop (terminal.rs lines 115-139): glyphs are placed at
the running sum of prior advances; placement stops (Rust `break`) once the
cursor reaches the render width. -/
def placeGlyphs (renderWidth maxHeight : Nat) : List Glyph → List Nat → Nat → List Nat
  | [], px, _ => px
  | g :: gs, px, xOffset =>
    if renderWidth ≤ xOffset then px
    else placeGlyphs renderWidth maxHeight gs
      (placeGlyph renderWidth maxHeight xOffset g px) (xOffset + g.advance)

/-- The pixel buffer built by `render_line_pixels` (terminal.rs lines 109-139):
a zero-initialized `render_width * max_height` buffer with all glyphs placed. -/
def linePixelBuffer (fm : FontModel) (width : Nat) (text : List Char) : List Nat :=
  placeGlyphs (min (lineTotalWidth fm text) width) (lineMaxHeight fm text)
    (lineGlyphs fm text)
    (List.replicate (min (lineTotalWidth fm text) width * lineMaxHeight fm text) 0) 0

/-- The four half-block output characters (terminal.rs lines 164-169). -/
def blockChar (top bot : Bool) : Char :=
  match top, bot with
  | true, true => '█'
  | true, false => '▀'
  | false, true => '▄'
  | false, false => ' '

/-- One output text row of the quantizer (terminal.rs lines 145-170): for
output row `row`, the top subpixel is source row `2*row` and the bottom
subpixel source row `2*row+1`, each 0 (background) when out of range, and a
subpixel is on iff its value is at least the threshold 64. -/
def quantRow (px : List Nat) (renderWidth maxHeight row : Nat) : List Char :=
  (List.range renderWidth).map (fun x =>
    blockChar
      (decide (64 ≤ (if 2 * row < maxHeight then px.getD (2 * row * renderWidth + x) 0 else 0)))
      (decide (64 ≤ (if 2 * row + 1 < maxHeight then
        px.getD ((2 * row + 1) * renderWidth + x) 0 else 0))))

/-- The block quantizer (terminal.rs lines 141-172): `(max_height + 1) / 2`
rows, each `render_width` characters followed by a newline. -/
def quantize (px : List Nat) (renderWidth maxHeight : Nat) : List Char :=
  ((List.range ((maxHeight + 1) / 2)).map
    (fun row => quantRow px renderWidth maxHeight row ++ ['\n'])).flatten

/-- `TerminalRenderer::render_line_pixels` (terminal.rs lines 80-175): the
passthrough branch returns the input text verbatim when `max_height == 0` or
`total_width == 0`; otherwise the composited buffer is quantized. -/
def render_line_pixels (fm : FontModel) (width : Nat) (text : List Char) : List Char :=
  if lineMaxHeight fm text = 0 ∨ lineTotalWidth fm text = 0 then text
  else quantize (linePixelBuffer fm width text)
    (min (lineTotalWidth fm text) width) (lineMaxHeight fm text)

/-- `TerminalRenderer::render_text` (terminal.rs lines 28-77): passthrough when
no font is loaded, empty output for empty word sequences, otherwise each
wrapped line rendered through the line compositor. -/
def render_text (fm : FontModel) (width : Nat) (text : List Char) : List Char :=
  if fm.hasFont = false then text
  else if splitWhitespace text = [] then []
  else ((wrapText fm.advanceOf width text).map
    (fun line => render_line_pixels fm width (joinWords line))).flatten

/-- The glyph source in font-less mode (font.rs lines 38-39 and 47-48 at
pixel size 8.0): empty rasterization and heuristic advance
`(8.0 * 0.6) as usize = 4`. -/
def noFontModel : FontModel :=
  ⟨false, fun _ => ([], 0, 0), fun _ => 4⟩

/-- Splitting a character list at every occurrence of `sep`, keeping empty
segments (the building block of Rust `str::lines`). -/
def splitOnChar (sep : Char) : List Char → List (List Char)
  | [] => [[]]
  | c :: cs =>
    match splitOnChar sep cs with
    | [] => [[]]
    | seg :: segs => if c = sep then [] :: seg :: segs else (c :: seg) :: segs

/-- Rust `str::lines` strips one trailing carriage return from a line. -/
def stripTrailingCR (l : List Char) : List Char :=
  if l.getLast? = some '\r' then l.dropLast else l

/-- Embedding of Rust `str::lines`: split at newlines, drop the trailing
empty segment produced by a final newline, strip one trailing `\r` per line. -/
def rustLines (s : List Char) : List (List Char) :=
  (if (splitOnChar '\n' s).getLast? = some [] then (splitOnChar '\n' s).dropLast
   else splitOnChar '\n' s).map stripTrailingCR

/-- The top border literal of `render_code_block` (terminal.rs line 178),
without its trailing newline. -/
def codeTopBorder : List Char :=
  ("┌─ code ──────────────────────────────────────────────────────────────────────┐").toList

/-- The bottom border literal of `render_code_block` (terminal.rs line 183),
without its trailing newline. -/
def codeBottomBorder : List Char :=
  ("└─────────────────────────────────────────────────────────────────────────────┘").toList

/-- `TerminalRenderer::render_code_block` (terminal.rs lines 177-185): each
physical line of the code is rendered independently by `render_line_pixels`
(never word-wrapped) between the two fixed border strings. -/
def render_code_block (fm : FontModel) (width : Nat) (code : List Char) : List Char :=
  ((rustLines code).foldl (fun acc line => acc ++ render_line_pixels fm width line)
    (codeTopBorder ++ ['\n'])) ++ codeBottomBorder ++ ['\n']

/-- A small concrete glyph source used to instantiate theorems on concrete
inputs: the bullet and the letter a rasterize to a single bright pixel,
everything else to an empty bitmap. -/
def sampleFM : FontModel :=
  ⟨true,
    fun ch => if ch = '•' ∨ ch = 'a' then ([255], 1, 1) else ([], 0, 0),
    fun ch => if ch = '•' ∨ ch = 'a' then 1 else 4⟩

/-- UTF-8 byte length of a string, Rust `str::len`. -/
def utf8Len (l : List Char) : Nat := (l.map Char.utf8Size).sum

/-- Rust `format!("{:<width$}", s)`: left-align and pad with spaces up to
`n` characters (the format width counts characters, not bytes). -/
def padTo (l : List Char) (n : Nat) : List Char := l ++ List.replicate (n - l.length) ' '

/-- The two-character bullet string rendered through the pixel pipeline
(terminal.rs line 207). -/
def bulletText : List Char := ['•', ' ']

/-- `TerminalRenderer::render_list_item` (terminal.rs lines 206-220).  Note
that the bullet column width is `bullet_lines.first().map(|l| l.len())`, and
Rust `str::len` is the UTF-8 byte length, while the `{:<width$}` padding
counts characters. -/
def render_list_item (fm : FontModel) (width : Nat) (item : List Char) : List Char :=
  let bulletLines := rustLines (render_line_pixels fm width bulletText)
  let contentLines := rustLines (render_text fm width item)
  let maxLines := max bulletLines.length contentLines.length
  let bulletWidth := match bulletLines.head? with
    | some l => utf8Len l
    | none => 2
  (List.range maxLines).foldl (fun acc i =>
    acc ++ padTo (bulletLines.getD i []) bulletWidth ++ contentLines.getD i [] ++ ['\n']) []

/-- Modelled from the spec (section 4.5, claim C5 wording): identical to
`render_list_item` except that the bullet column width is the character
length of the first bullet line instead of its UTF-8 byte length.  Used to
compare the specified behaviour with the implemented one. -/
def render_list_item_claimed (fm : FontModel) (width : Nat) (item : List Char) : List Char :=
  let bulletLines := rustLines (render_line_pixels fm width bulletText)
  let contentLines := rustLines (render_text fm width item)
  let maxLines := max bulletLines.length contentLines.length
  let bulletWidth := match bulletLines.head? with
    | some l => l.length
    | none => 2
  (List.range maxLines).foldl (fun acc i =>
    acc ++ padTo (bulletLines.getD i []) bulletWidth ++ contentLines.getD i [] ++ ['\n']) []

/-- The bullet block of `render_list_item`: the output lines of the rendered
two-character bullet string (terminal.rs lines 207, 209). -/
def bulletBlock (fm : FontModel) (width : Nat) : List (List Char) :=
  rustLines (render_line_pixels fm width bulletText)

/-- The content block of `render_list_item`: the output lines of the rendered
item text (terminal.rs lines 208, 210). -/
def contentBlock (fm : FontModel) (width : Nat) (item : List Char) : List (List Char) :=
  rustLines (render_text fm width item)

/-- The fixed bullet-column width of `render_list_item` (terminal.rs line
212): `bullet_lines.first().map(|l| l.len()).unwrap_or(2)` — Rust `str::len`
is the UTF-8 byte length. -/
def bulletColWidth (fm : FontModel) (width : Nat) : Nat :=
  match (bulletBlock fm width).head? with
  | some l => utf8Len l
  | none => 2

/-- Row `i` of a rendered list item (terminal.rs line 217), before its
newline: the bullet line padded to the fixed column width, then the content
line, blanks for missing lines on either side. -/
def listItemRow (fm : FontModel) (width : Nat) (item : List Char) (i : Nat) : List Char :=
  padTo ((bulletBlock fm width).getD i []) (bulletColWidth fm width)
    ++ (contentBlock fm width item).getD i []

/-- `TerminalRenderer::render_blockquote` (terminal.rs lines 187-196). -/
def render_blockquote (fm : FontModel) (width : Nat) (text : List Char) : List Char :=
  (rustLines (render_text fm width text)).foldl
    (fun acc line => acc ++ ('│' :: ' ' :: line) ++ ['\n']) []

/-- `ElementType` (markdown.rs lines 7-16). -/
inductive ElementType where
  | Heading : Nat → ElementType
  | Paragraph : ElementType
  | CodeBlock : ElementType
  | Image : ElementType
  | Text : ElementType
  | Blockquote : ElementType
  | List : ElementType
  | ListItem : ElementType
deriving DecidableEq

/-- `MarkdownElement` (markdown.rs lines 18-24); the attribute `HashMap` is an
association list (the parser stores at most the single key `"src"`). -/
inductive MarkdownElement where
  | mk (elementType : ElementType) (content : List Char)
      (children : List MarkdownElement) (attributes : List (List Char × List Char))

def MarkdownElement.elementType : MarkdownElement → ElementType
  | .mk t _ _ _ => t

def MarkdownElement.content : MarkdownElement → List Char
  | .mk _ c _ _ => c

def MarkdownElement.children : MarkdownElement → List MarkdownElement
  | .mk _ _ ch _ => ch

def MarkdownElement.attributes : MarkdownElement → List (List Char × List Char)
  | .mk _ _ _ a => a

/-- `attributes.get("src")`: association-list lookup. -/
def lookupAttr (k : List Char) : List (List Char × List Char) → Option (List Char)
  | [] => none
  | (k', v) :: rest => if k = k' then some v else lookupAttr k rest

/-- The `flush` closure of `parse_markdown` (markdown.rs lines 84-94):
append an element for the accumulated content when it is non-empty. -/
def flushEl (elements : List MarkdownElement) (content : List Char) (etype : ElementType) :
    List MarkdownElement :=
  if content = [] then elements
  else elements ++ [.mk etype content [] []]

/-- One iteration of the line loop of `parse_markdown`
(markdown.rs lines 96-140); the state is
`(elements, current_content, current_type)`. -/
def parseLineStep (st : List MarkdownElement × List Char × ElementType)
    (line : List Char) : List MarkdownElement × List Char × ElementType :=
  if (("# ").toList).isPrefixOf line then
    (flushEl st.1 st.2.1 st.2.2 ++ [.mk (.Heading 1) (line.drop 2) [] []], [], .Paragraph)
  else if (("## ").toList).isPrefixOf line then
    (flushEl st.1 st.2.1 st.2.2 ++ [.mk (.Heading 2) (line.drop 3) [] []], [], .Paragraph)
  else if (("![](").toList).isPrefixOf line ∧ line.getLast? = some ')' then
    (flushEl st.1 st.2.1 st.2.2
      ++ [.mk .Image [] [] [(("src").toList, (line.drop 4).dropLast)]], [], .Paragraph)
  else if line.all Char.isWhitespace then
    (flushEl st.1 st.2.1 st.2.2, [], .Paragraph)
  else if st.2.2 = .Paragraph then
    (st.1, (if st.2.1 = [] then line else st.2.1 ++ '\n' :: line), .Paragraph)
  else
    (flushEl st.1 st.2.1 st.2.2, line, .Paragraph)

/-- `parse_markdown` (markdown.rs lines 78-146). -/
def parse_markdown (content : List Char) : List MarkdownElement :=
  let st := (rustLines content).foldl parseLineStep ([], [], ElementType.Paragraph)
  flushEl st.1 st.2.1 st.2.2

/-- The decoded image data consumed by the stub renderer (image.rs). -/
structure ImageData where
  width : Nat
  height : Nat

/-- `ImageProcessor::process_image` (image.rs lines 14-22), parameterized by
the external `load_image` collaborator (image.rs lines 24-29): on success the
unicode-block stub string, on failure the exact placeholder with the path
substituted verbatim. -/
def process_image (load : List Char → Option ImageData) (path : List Char) : List Char :=
  match load path with
  | some img =>
    (("[Unicode block rendering: ").toList) ++ (toString img.width).toList
      ++ ('x' :: (toString img.height).toList) ++ [']']
  | none => (("[Failed to load image: ").toList) ++ path ++ [']']

/-- `TerminalRenderer::render_list` (terminal.rs lines 198-204). -/
def render_list (fm : FontModel) (width : Nat) (items : List MarkdownElement) : List Char :=
  items.foldl (fun acc item => acc ++ render_list_item fm width item.content) []

/-- `process_markdown` (markdown.rs lines 26-76), parameterized by the glyph
source and the image-loading collaborator. -/
def process_markdown (fm : FontModel) (load : List Char → Option ImageData)
    (content : List Char) (width : Nat) : List Char :=
  (parse_markdown content).foldl (fun result el =>
    result ++
      (match el.elementType with
       | .Heading level => render_text fm width (List.replicate level '#' ++ ' ' :: el.content)
       | .Paragraph => render_text fm width el.content
       | .CodeBlock => render_code_block fm width el.content
       | .Image =>
         match lookupAttr (("src").toList) el.attributes with
         | some src => process_image load src
         | none => []
       | .Text => render_text fm width el.content
       | .Blockquote => render_blockquote fm width el.content
       | .List => render_list fm width el.children
       | .ListItem => render_list_item fm width el.content)
      ++ ['\n']) []

/-- The command-line arguments (main.rs lines 10-28), including the accepted
`theme` option. -/
structure Args where
  file : Option (List Char)
  stdin : Bool
  width : Nat
  theme : List Char

/-- The rendering call of `main` (main.rs line 46): once the input content is
acquired, the output is `process_markdown(&markdown_content, args.width)`. -/
def mainRender (args : Args) (fm : FontModel) (load : List Char → Option ImageData)
    (content : List Char) : List Char :=
  process_markdown fm load content args.width

/-- The stateful glyph cache of font.rs.  The `font` field models the fontdue
rasterizer as a deterministic function, present only when a font resource
parsed; pixel sizes are represented by their exact `f32` bit pattern
(`size.to_bits()`), so the cache key is `(char, sizeBits)` and two calls with
bit-identical sizes use the same key. -/
structure FontRenderer where
  font : Option (Char → Nat → List Nat × Nat × Nat)
  font_cache : List ((Char × Nat) × (List Nat × Nat × Nat))

/-- `let key = (ch, size.to_bits())` (font.rs line 28). -/
def cacheKey (ch : Char) (sizeBits : Nat) : Char × Nat := (ch, sizeBits)

/-- `HashMap::get` on the cache, modelled on the association list. -/
def lookupCache (k : Char × Nat) :
    List ((Char × Nat) × (List Nat × Nat × Nat)) → Option (List Nat × Nat × Nat)
  | [] => none
  | (k', v) :: rest => if k = k' then some v else lookupCache k rest

/-- `FontRenderer::rasterize_char` (font.rs lines 27-41): return the cached
result for the exact key when present; otherwise rasterize, insert into the
cache and return; without a font return an empty bitmap. -/
def FontRenderer.rasterize_char (fr : FontRenderer) (ch : Char) (sizeBits : Nat) :
    (List Nat × Nat × Nat) × FontRenderer :=
  match lookupCache (cacheKey ch sizeBits) fr.font_cache with
  | some cached => (cached, fr)
  | none =>
    match fr.font with
    | some font =>
      (font ch sizeBits, ⟨fr.font, (cacheKey ch sizeBits, font ch sizeBits) :: fr.font_cache⟩)
    | none => (([], 0, 0), fr)

/-! ## Theorems -/

theorem lineWidth_single (adv : Char → Nat) (spaceW : Nat) (w : List Char) :
    lineWidth adv spaceW [w] = wordWidth adv w := by
  simp [lineWidth]

theorem lineWidth_append_word (adv : Char → Nat) (spaceW : Nat) (cur : List (List Char))
    (w : List Char) (h : cur ≠ []) :
    lineWidth adv spaceW (cur ++ [w]) = lineWidth adv spaceW cur + spaceW + wordWidth adv w := by
  cases cur with
  | nil => exact absurd rfl h
  | cons a as =>
    have hlen : ((a :: as) ++ [w]).length - 1 = as.length + 1 := by simp
    have hlen2 : (a :: as).length - 1 = as.length := by simp
    simp only [lineWidth, List.map_append, List.sum_append, hlen, hlen2, List.map_cons,
      List.map_nil, List.sum_cons, List.sum_nil, Nat.mul_succ]
    omega

theorem emitted_line_ok (adv : Char → Nat) (spaceW maxW : Nat) (cur : List (List Char))
    (h : cur ≠ []) (hb : 2 ≤ cur.length → lineWidth adv spaceW cur ≤ maxW) :
    lineWidth adv spaceW cur ≤ maxW ∨ ∃ w, cur = [w] ∧ maxW < wordWidth adv w := by
  match cur with
  | [] => exact absurd rfl h
  | [w] =>
    rcases le_or_lt (wordWidth adv w) maxW with hle | hlt
    · exact Or.inl (by rw [lineWidth_single]; exact hle)
    · exact Or.inr ⟨w, rfl, hlt⟩
  | w₁ :: w₂ :: rest =>
    exact Or.inl (hb (by simp only [List.length_cons]; omega))

theorem wrapWords_flatten (adv : Char → Nat) (spaceW maxW : Nat) :
    ∀ (words cur : List (List Char)) (curW : Nat),
      (wrapWords adv spaceW maxW words cur curW).flatten = cur ++ words := by
  intro words
  induction words with
  | nil =>
    intro cur curW
    by_cases h : cur = [] <;> simp [wrapWords, h]
  | cons w ws ih =>
    intro cur curW
    by_cases h : cur = []
    · simp [wrapWords, h, ih]
    · by_cases hfit : curW + spaceW + wordWidth adv w ≤ maxW
      · simp [wrapWords, h, hfit, ih]
      · simp [wrapWords, h, hfit, ih]

theorem wrapWords_budget (adv : Char → Nat) (spaceW maxW : Nat) :
    ∀ (words cur : List (List Char)) (curW : Nat),
      (cur ≠ [] → curW = lineWidth adv spaceW cur ∧ (2 ≤ cur.length → curW ≤ maxW)) →
      ∀ line ∈ wrapWords adv spaceW maxW words cur curW,
        line ≠ [] ∧ (lineWidth adv spaceW line ≤ maxW ∨
          ∃ w, line = [w] ∧ maxW < wordWidth adv w) := by
  intro words
  induction words with
  | nil =>
    intro cur curW hinv line hline
    by_cases h : cur = []
    · simp [wrapWords, h] at hline
    · simp only [wrapWords, if_neg h, List.mem_singleton] at hline
      subst hline
      obtain ⟨hw, hb⟩ := hinv h
      exact ⟨h, emitted_line_ok adv spaceW maxW line h (fun hlen => hw ▸ hb hlen)⟩
  | cons w ws ih =>
    intro cur curW hinv line hline
    by_cases h : cur = []
    · rw [wrapWords, if_pos h] at hline
      refine ih [w] (wordWidth adv w) ?_ line hline
      intro _
      exact ⟨(lineWidth_single adv spaceW w).symm, by simp⟩
    · by_cases hfit : curW + spaceW + wordWidth adv w ≤ maxW
      · rw [wrapWords, if_neg h, if_pos hfit] at hline
        refine ih (cur ++ [w]) (curW + spaceW + wordWidth adv w) ?_ line hline
        intro _
        obtain ⟨hw, _⟩ := hinv h
        constructor
        · rw [lineWidth_append_word adv spaceW cur w h, hw]
        · intro _; exact hfit
      · rw [wrapWords, if_neg h, if_neg hfit] at hline
        rcases List.mem_cons.mp hline with heq | hmem
        · subst heq
          obtain ⟨hw, hb⟩ := hinv h
          exact ⟨h, emitted_line_ok adv spaceW maxW line h (fun hlen => hw ▸ hb hlen)⟩
        · refine ih [w] (wordWidth adv w) ?_ line hmem
          intro _
          exact ⟨(lineWidth_single adv spaceW w).symm, by simp⟩

/-- C2: every wrapped line, except a single overflowing word, fits the pixel
budget; every line is non-empty (the first word of a line is always placed). -/
theorem wrap_budget (adv : Char → Nat) (maxW : Nat) (text : List Char) :
    ∀ line ∈ wrapText adv maxW text,
      line ≠ [] ∧ (lineWidth adv (max (adv ' ') 4) line ≤ maxW ∨
        ∃ w, line = [w] ∧ maxW < wordWidth adv w) :=
  wrapWords_budget adv (max (adv ' ') 4) maxW (splitWhitespace text) [] 0
    (fun h => absurd rfl h)

theorem splitWSAux_word : ∀ (w l acc : List Char), (∀ c ∈ w, c.isWhitespace = false) →
    splitWSAux (w ++ l) acc = splitWSAux l (w.reverse ++ acc) := by
  intro w
  induction w with
  | nil => intro l acc _; simp
  | cons c w' ih =>
    intro l acc hw
    have hc : c.isWhitespace = false := hw c (by simp)
    simp only [List.cons_append, splitWSAux, hc, Bool.false_eq_true, if_false, List.append_eq]
    rw [ih l (c :: acc) (fun x hx => hw x (by simp [hx]))]
    simp

theorem splitWS_roundtrip : ∀ (ws : List (List Char)),
    (∀ w ∈ ws, w ≠ [] ∧ ∀ c ∈ w, c.isWhitespace = false) →
    splitWhitespace (joinWords ws) = ws := by
  intro ws
  induction ws with
  | nil => intro _; rfl
  | cons w rest ih =>
    intro hws
    obtain ⟨hne, hnws⟩ := hws w (by simp)
    cases rest with
    | nil =>
      show splitWSAux (joinWords [w]) [] = [w]
      have : joinWords [w] = w ++ [] := by simp [joinWords]
      rw [this, splitWSAux_word w [] [] hnws]
      have : w.reverse ++ [] ≠ [] := by simp [hne]
      simp [splitWSAux, this, hne]
    | cons x xs =>
      have hj : joinWords (w :: x :: xs) = w ++ ' ' :: joinWords (x :: xs) := rfl
      show splitWSAux (joinWords (w :: x :: xs)) [] = w :: x :: xs
      rw [hj, splitWSAux_word w (' ' :: joinWords (x :: xs)) [] hnws]
      have hrev : w.reverse ++ [] ≠ [] := by simp [hne]
      simp only [splitWSAux, Char.isWhitespace, hrev, if_neg]
      have hsp : (' ').isWhitespace = true := by decide
      simp only [splitWSAux, hsp, if_true, hrev, if_neg, List.append_nil]
      rw [List.reverse_reverse]
      have := ih (fun v hv => hws v (by simp [hv]))
      rw [show splitWhitespace (joinWords (x :: xs)) = splitWSAux (joinWords (x :: xs)) [] from rfl] at this
      simp [this]

theorem splitWS_words : ∀ (cs acc : List Char), (∀ c ∈ acc, c.isWhitespace = false) →
    ∀ w ∈ splitWSAux cs acc, w ≠ [] ∧ ∀ c ∈ w, c.isWhitespace = false := by
  intro cs
  induction cs with
  | nil =>
    intro acc hacc w hw
    by_cases h : acc = []
    · simp [splitWSAux, h] at hw
    · simp only [splitWSAux, if_neg h, List.mem_singleton] at hw
      subst hw
      exact ⟨by simp [h], fun c hc => hacc c (List.mem_reverse.mp hc)⟩
  | cons c cs' ih =>
    intro acc hacc w hw
    by_cases hc : c.isWhitespace
    · by_cases h : acc = []
      · simp only [splitWSAux, hc, if_true, h, if_pos] at hw
        exact ih [] (by simp) w hw
      · simp only [splitWSAux, hc, if_true, if_neg h, List.mem_cons] at hw
        rcases hw with heq | hmem
        · subst heq
          exact ⟨by simp [h], fun x hx => hacc x (List.mem_reverse.mp hx)⟩
        · exact ih [] (by simp) w hmem
    · simp only [splitWSAux, hc, Bool.false_eq_true, if_false] at hw
      refine ih (c :: acc) ?_ w hw
      intro x hx
      rcases List.mem_cons.mp hx with heq | hmem
      · subst heq; exact Bool.eq_false_iff.mpr hc
      · exact hacc x hmem

theorem splitWS_all_ws : ∀ (cs : List Char), (∀ c ∈ cs, c.isWhitespace = true) →
    splitWhitespace cs = [] := by
  intro cs
  induction cs with
  | nil => intro _; rfl
  | cons c cs' ih =>
    intro h
    have hc : c.isWhitespace = true := h c (by simp)
    show splitWSAux (c :: cs') [] = []
    simp only [splitWSAux, hc, if_true, if_pos rfl]
    exact ih (fun x hx => h x (by simp [hx]))

/-- C3: the wrapped lines, each split back into words, concatenate to the
whitespace-split word sequence of the input; all-whitespace input yields an
empty sequence of lines. -/
theorem wrap_totality (adv : Char → Nat) (maxW : Nat) (text : List Char) :
    ((wrapText adv maxW text).map (fun l => splitWhitespace (joinWords l))).flatten
        = splitWhitespace text
    ∧ ((∀ c ∈ text, c.isWhitespace = true) → wrapText adv maxW text = []) := by
  constructor
  · have hall : ∀ line ∈ wrapText adv maxW text, splitWhitespace (joinWords line) = line := by
      intro line hline
      apply splitWS_roundtrip
      intro w hw
      have hwmem : w ∈ (wrapText adv maxW text).flatten :=
        List.mem_flatten.mpr ⟨line, hline, hw⟩
      rw [wrapText, wrapWords_flatten] at hwmem
      simp only [List.nil_append] at hwmem
      exact splitWS_words text [] (by simp) w hwmem
    rw [List.map_congr_left hall, List.map_id', wrapText, wrapWords_flatten]
    simp
  · intro hws
    rw [wrapText, splitWS_all_ws text hws]
    rfl

theorem wrap_totality_witness :
    ((wrapText (fun _ => 10) 50 ("ab cd".toList)).map
        (fun l => splitWhitespace (joinWords l))).flatten
      = splitWhitespace ("ab cd".toList)
    ∧ wrapText (fun _ => 10) 50 ("   ".toList) = [] :=
  ⟨(wrap_totality (fun _ => 10) 50 ("ab cd".toList)).1,
   (wrap_totality (fun _ => 10) 50 ("   ".toList)).2 (by decide)⟩

theorem wrap_budget_witness :
    (("aaaaaaaaaa".toList :: []) ≠ [] ∧
      (lineWidth (fun _ => 10) (max ((fun (_ : Char) => 10) ' ') 4)
          ("aaaaaaaaaa".toList :: []) ≤ 50 ∨
        ∃ w, ("aaaaaaaaaa".toList :: []) = [w] ∧ 50 < wordWidth (fun _ => 10) w)) :=
  wrap_budget (fun _ => 10) 50 ("aaaaaaaaaa bbbbbbbbbb".toList)
    ("aaaaaaaaaa".toList :: []) (by decide)

theorem foldl_max_zero : ∀ n : Nat, (List.replicate n 0).foldl max 0 = 0 := by
  intro n
  induction n with
  | zero => rfl
  | succ k ih =>
    rw [List.replicate_succ, List.foldl_cons]
    simpa using ih

theorem lineMaxHeight_noFont (text : List Char) : lineMaxHeight noFontModel text = 0 := by
  rw [lineMaxHeight, lineGlyphs, List.map_map]
  have h : (Glyph.height ∘ glyphOf noFontModel) = fun (_ : Char) => 0 := rfl
  rw [h, List.map_const', foldl_max_zero]

/-- C4: the line compositor returns the input verbatim when the maximum glyph
height or the total advance width is 0, and font-less rendering is a total
plain-text passthrough at both the text and the line level. -/
theorem compositor_passthrough (fm : FontModel) (width : Nat) (text : List Char) :
    (lineMaxHeight fm text = 0 ∨ lineTotalWidth fm text = 0 →
      render_line_pixels fm width text = text)
    ∧ render_text noFontModel width text = text
    ∧ render_line_pixels noFontModel width text = text := by
  refine ⟨fun h => ?_, ?_, ?_⟩
  · rw [render_line_pixels, if_pos h]
  · simp [render_text, noFontModel]
  · rw [render_line_pixels, if_pos (Or.inl (lineMaxHeight_noFont text))]

theorem compositor_passthrough_witness :
    render_line_pixels noFontModel 800 ("hi".toList) = "hi".toList
    ∧ render_text noFontModel 800 ("hi".toList) = "hi".toList :=
  ⟨(compositor_passthrough noFontModel 800 ("hi".toList)).1
      (Or.inl (by decide)),
   (compositor_passthrough noFontModel 800 ("hi".toList)).2.1⟩

theorem foldl_length_inv {β : Type} (f : List Nat → β → List Nat)
    (hf : ∀ acc b, (f acc b).length = acc.length) :
    ∀ (l : List β) (init : List Nat), (l.foldl f init).length = init.length := by
  intro l
  induction l with
  | nil => intro init; rfl
  | cons b bs ih => intro init; rw [List.foldl_cons, ih, hf]

theorem writePixel_length (renderWidth maxHeight : Nat) (g : Glyph) (xOffset yOffset : Nat)
    (px : List Nat) (gy gx : Nat) :
    (writePixel renderWidth maxHeight g xOffset yOffset px gy gx).length = px.length := by
  rw [writePixel]
  split
  · split
    · exact List.length_set px _ _
    · rfl
  · rfl

theorem placeGlyph_length (renderWidth maxHeight xOffset : Nat) (g : Glyph) (px : List Nat) :
    (placeGlyph renderWidth maxHeight xOffset g px).length = px.length := by
  rw [placeGlyph]
  refine foldl_length_inv _ (fun acc gy => ?_) _ _
  exact foldl_length_inv _ (fun acc2 gx => writePixel_length _ _ _ _ _ _ _ _) _ _

theorem placeGlyphs_length (renderWidth maxHeight : Nat) :
    ∀ (gs : List Glyph) (px : List Nat) (xOffset : Nat),
      (placeGlyphs renderWidth maxHeight gs px xOffset).length = px.length := by
  intro gs
  induction gs with
  | nil => intro px xOffset; rfl
  | cons g gs' ih =>
    intro px xOffset
    rw [placeGlyphs]
    split
    · rfl
    · rw [ih, placeGlyph_length]

theorem linePixelBuffer_length (fm : FontModel) (width : Nat) (text : List Char) :
    (linePixelBuffer fm width text).length
      = min (lineTotalWidth fm text) width * lineMaxHeight fm text := by
  rw [linePixelBuffer, placeGlyphs_length, List.length_replicate]

/-- C10: the pixel buffer allocated by the line compositor has exactly
`renderWidth * maxHeight` entries, and every index of the form
`y * renderWidth + x` accessed under the placement and quantization guards
`y < maxHeight`, `x < renderWidth` is within bounds (the source-side bitmap
read is guarded by `srcIdx < bitmap.length` itself), so no out-of-bounds
access is reachable. -/
theorem buffer_access_safe (fm : FontModel) (width : Nat) (text : List Char) (y x : Nat) :
    (linePixelBuffer fm width text).length
        = min (lineTotalWidth fm text) width * lineMaxHeight fm text
    ∧ (y < lineMaxHeight fm text → x < min (lineTotalWidth fm text) width →
        y * min (lineTotalWidth fm text) width + x < (linePixelBuffer fm width text).length) := by
  refine ⟨linePixelBuffer_length fm width text, fun hy hx => ?_⟩
  rw [linePixelBuffer_length fm width text]
  have h1 : y * min (lineTotalWidth fm text) width + x
      < (y + 1) * min (lineTotalWidth fm text) width := by
    rw [Nat.succ_mul]
    omega
  have h2 : (y + 1) * min (lineTotalWidth fm text) width
      ≤ lineMaxHeight fm text * min (lineTotalWidth fm text) width :=
    Nat.mul_le_mul_right _ hy
  exact (h1.trans_le h2).trans_le (Nat.mul_comm _ _).le

theorem buffer_access_safe_witness :
    (linePixelBuffer sampleFM 800 ['a']).length
        = min (lineTotalWidth sampleFM ['a']) 800 * lineMaxHeight sampleFM ['a']
    ∧ 0 * min (lineTotalWidth sampleFM ['a']) 800 + 0
        < (linePixelBuffer sampleFM 800 ['a']).length :=
  ⟨(buffer_access_safe sampleFM 800 ['a'] 0 0).1,
   (buffer_access_safe sampleFM 800 ['a'] 0 0).2 (by decide) (by decide)⟩

theorem flatten_blocks_length {α : Type} (f : Nat → List α) (n L : Nat)
    (hf : ∀ i < n, (f i).length = L) :
    ((List.range n).map f).flatten.length = n * L := by
  induction n with
  | zero => simp
  | succ k ih =>
    rw [List.range_succ, List.map_append, List.flatten_append, List.length_append,
      ih (fun i hi => hf i (Nat.lt_succ_of_lt hi))]
    simp only [List.map_cons, List.map_nil, List.flatten_cons, List.flatten_nil,
      List.append_nil]
    rw [hf k (Nat.lt_succ_self k), Nat.succ_mul]

theorem flatten_blocks_getD {α : Type} : ∀ (n : Nat) (f : Nat → List α) (L : Nat) (d : α)
    (r k : Nat), (∀ i < n, (f i).length = L) → r < n → k < L →
    ((List.range n).map f).flatten.getD (r * L + k) d = (f r).getD k d := by
  intro n
  induction n with
  | zero => intro f L d r k _ hr _; omega
  | succ m ih =>
    intro f L d r k hf hr hk
    rw [List.range_succ_eq_map, List.map_cons, List.flatten_cons, List.map_map]
    cases r with
    | zero =>
      rw [Nat.zero_mul, Nat.zero_add, List.getD_eq_getElem?_getD,
        List.getElem?_append_left (by rw [hf 0 (Nat.succ_pos m)]; exact hk),
        ← List.getD_eq_getElem?_getD]
    | succ r' =>
      have hidx : (r' + 1) * L + k = (f 0).length + (r' * L + k) := by
        rw [hf 0 (Nat.succ_pos m), Nat.succ_mul]
        omega
      rw [hidx, List.getD_eq_getElem?_getD,
        List.getElem?_append_right (Nat.le_add_right _ _), Nat.add_sub_cancel_left,
        ← List.getD_eq_getElem?_getD]
      have := ih (f ∘ Nat.succ) L d r' k
        (fun i hi => hf (i + 1) (Nat.succ_lt_succ hi)) (Nat.lt_of_succ_lt_succ hr) hk
      simpa using this

theorem quantRow_length (px : List Nat) (w h row : Nat) :
    (quantRow px w h row).length = w := by
  rw [quantRow, List.length_map, List.length_range]

theorem quantRow_getD (px : List Nat) (w h row x : Nat) (hx : x < w) :
    (quantRow px w h row).getD x 'X' =
      blockChar
        (decide (64 ≤ (if 2 * row < h then px.getD (2 * row * w + x) 0 else 0)))
        (decide (64 ≤ (if 2 * row + 1 < h then px.getD ((2 * row + 1) * w + x) 0 else 0))) := by
  rw [quantRow, List.getD_eq_getElem?_getD, List.getElem?_map, List.getElem?_range hx]
  rfl

theorem blockChar_cases (b1 b2 : Bool) :
    blockChar b1 b2 = '█' ∨ blockChar b1 b2 = '▀' ∨ blockChar b1 b2 = '▄'
    ∨ blockChar b1 b2 = ' ' := by
  cases b1 <;> cases b2 <;> simp [blockChar]

theorem quantize_chars (px : List Nat) (w h : Nat) :
    ∀ c ∈ quantize px w h, c = '█' ∨ c = '▀' ∨ c = '▄' ∨ c = ' ' ∨ c = '\n' := by
  intro c hc
  rw [quantize] at hc
  obtain ⟨block, hblockmem, hcin⟩ := List.mem_flatten.mp hc
  obtain ⟨row, _, hrow⟩ := List.mem_map.mp hblockmem
  subst hrow
  rcases List.mem_append.mp hcin with hq | hnl
  · obtain ⟨x, _, hx⟩ := List.mem_map.mp (by rw [quantRow] at hq; exact hq)
    rcases blockChar_cases
        (decide (64 ≤ (if 2 * row < h then px.getD (2 * row * w + x) 0 else 0)))
        (decide (64 ≤ (if 2 * row + 1 < h then
          px.getD ((2 * row + 1) * w + x) 0 else 0))) with h1 | h1 | h1 | h1 <;>
      rw [← hx] <;> rw [h1] <;> simp
  · simp only [List.mem_singleton] at hnl
    subst hnl
    simp

theorem blockChar_decide (p1 p2 : Prop) [Decidable p1] [Decidable p2] :
    blockChar (decide p1) (decide p2) =
      if p1 then (if p2 then '█' else '▀') else (if p2 then '▄' else ' ') := by
  by_cases h1 : p1 <;> by_cases h2 : p2 <;> simp [blockChar, h1, h2]

/-- C1: on a buffer of dimensions `w * h` the quantizer emits
`ceil(h/2) = (h+1)/2` rows of `w` characters each followed by a newline; the
character at output row `r`, column `x` is determined by the threshold-64
classification of the pixels at source rows `2r` and `2r+1` (background 0 when
out of range) exactly per the half-block table, and no character other than
the four half-block glyphs and the newline ever appears. -/
theorem quantization_table (px : List Nat) (w h : Nat) (hlen : px.length = w * h) :
    (quantize px w h).length = ((h + 1) / 2) * (w + 1)
    ∧ (∀ r x, r < (h + 1) / 2 → x < w →
        (quantize px w h).getD (r * (w + 1) + x) 'X' =
          (if 64 ≤ (if 2 * r < h then px.getD (2 * r * w + x) 0 else 0) then
            (if 64 ≤ (if 2 * r + 1 < h then px.getD ((2 * r + 1) * w + x) 0 else 0) then '█'
             else '▀')
           else
            (if 64 ≤ (if 2 * r + 1 < h then px.getD ((2 * r + 1) * w + x) 0 else 0) then '▄'
             else ' ')))
    ∧ (∀ r, r < (h + 1) / 2 → (quantize px w h).getD (r * (w + 1) + w) 'X' = '\n')
    ∧ (∀ c ∈ quantize px w h, c = '█' ∨ c = '▀' ∨ c = '▄' ∨ c = ' ' ∨ c = '\n') := by
  have hblock : ∀ i, i < (h + 1) / 2 →
      (quantRow px w h i ++ ['\n']).length = w + 1 := by
    intro i _
    rw [List.length_append, quantRow_length]
    rfl
  refine ⟨?_, ?_, ?_, ?_⟩
  · rw [quantize, flatten_blocks_length _ _ (w + 1) hblock]
  · intro r x hr hx
    rw [quantize, flatten_blocks_getD _ _ (w + 1) 'X' r x hblock hr (by omega)]
    rw [List.getD_eq_getElem?_getD, List.getElem?_append_left (by rw [quantRow_length]; exact hx),
      ← List.getD_eq_getElem?_getD, quantRow_getD px w h r x hx, blockChar_decide]
  · intro r hr
    rw [quantize, flatten_blocks_getD _ _ (w + 1) 'X' r w hblock hr (by omega)]
    rw [List.getD_eq_getElem?_getD,
      List.getElem?_append_right (by rw [quantRow_length]),
      quantRow_length, Nat.sub_self]
    rfl
  · exact quantize_chars px w h

theorem quantization_table_witness :
    (quantize [100, 0, 100, 30] 2 2).length = ((2 + 1) / 2) * (2 + 1)
    ∧ (quantize [100, 0, 100, 30] 2 2).getD (0 * (2 + 1) + 0) 'X' =
        (if 64 ≤ (if 2 * 0 < 2 then ([100, 0, 100, 30] : List Nat).getD (2 * 0 * 2 + 0) 0 else 0)
         then
          (if 64 ≤ (if 2 * 0 + 1 < 2 then
              ([100, 0, 100, 30] : List Nat).getD ((2 * 0 + 1) * 2 + 0) 0 else 0) then '█'
           else '▀')
         else
          (if 64 ≤ (if 2 * 0 + 1 < 2 then
              ([100, 0, 100, 30] : List Nat).getD ((2 * 0 + 1) * 2 + 0) 0 else 0) then '▄'
           else ' '))
    ∧ (quantize [100, 0, 100, 30] 2 2).getD (0 * (2 + 1) + 2) 'X' = '\n' :=
  ⟨(quantization_table [100, 0, 100, 30] 2 2 (by decide)).1,
   (quantization_table [100, 0, 100, 30] 2 2 (by decide)).2.1 0 0 (by decide) (by decide),
   (quantization_table [100, 0, 100, 30] 2 2 (by decide)).2.2.1 0 (by decide)⟩

theorem foldl_append_eq_flatten {α β : Type} (f : β → List α) :
    ∀ (l : List β) (init : List α),
      l.foldl (fun acc b => acc ++ f b) init = init ++ (l.map f).flatten := by
  intro l
  induction l with
  | nil => intro init; simp
  | cons b bs ih =>
    intro init
    rw [List.foldl_cons, ih, List.map_cons, List.flatten_cons, List.append_assoc]

/-- C9: a rendered code block is exactly the fixed 79-character top border
line, then every physical line of the code rendered independently through the
line compositor (never the word wrapper, so lines may overflow the width
budget), then the fixed 79-character bottom border line; both border widths
are hardcoded constants independent of the content and of the render width. -/
theorem code_block_shape (fm : FontModel) (width : Nat) (code : List Char) :
    render_code_block fm width code
      = (codeTopBorder ++ ['\n'])
        ++ ((rustLines code).map (render_line_pixels fm width)).flatten
        ++ (codeBottomBorder ++ ['\n'])
    ∧ codeTopBorder.length = 79 ∧ codeBottomBorder.length = 79 := by
  refine ⟨?_, by decide, by decide⟩
  rw [render_code_block, foldl_append_eq_flatten]
  simp [List.append_assoc]

/-- C6: `rasterize_char` keys the cache by the exact `(char, sizeBits)` pair;
after a first call with a loaded font the result is memoized under that key,
and a second call with a bit-identical size returns the first call's result
and leaves the state unchanged. -/
theorem rasterize_memoized (fr : FontRenderer) (f : Char → Nat → List Nat × Nat × Nat)
    (ch : Char) (sizeBits : Nat) (hfont : fr.font = some f) :
    lookupCache (cacheKey ch sizeBits) ((fr.rasterize_char ch sizeBits).2).font_cache
        = some (fr.rasterize_char ch sizeBits).1
    ∧ ((fr.rasterize_char ch sizeBits).2).rasterize_char ch sizeBits
        = ((fr.rasterize_char ch sizeBits).1, (fr.rasterize_char ch sizeBits).2) := by
  cases hcache : lookupCache (cacheKey ch sizeBits) fr.font_cache with
  | some cached =>
    have hres : fr.rasterize_char ch sizeBits = (cached, fr) := by
      rw [FontRenderer.rasterize_char, hcache]
    rw [hres]
    exact ⟨hcache, by rw [FontRenderer.rasterize_char, hcache]⟩
  | none =>
    have hres : fr.rasterize_char ch sizeBits =
        (f ch sizeBits,
          ⟨fr.font, (cacheKey ch sizeBits, f ch sizeBits) :: fr.font_cache⟩) := by
      rw [FontRenderer.rasterize_char, hcache, hfont]
    rw [hres]
    have hhit : lookupCache (cacheKey ch sizeBits)
        ((cacheKey ch sizeBits, f ch sizeBits) :: fr.font_cache) = some (f ch sizeBits) := by
      rw [lookupCache, if_pos rfl]
    exact ⟨hhit, by rw [FontRenderer.rasterize_char]; rw [hhit]⟩

theorem rasterize_memoized_witness :
    lookupCache (cacheKey 'a' 1090519040)
        (((FontRenderer.mk (some (fun _ _ => ([7], 1, 1))) []).rasterize_char
          'a' 1090519040).2).font_cache
      = some (((FontRenderer.mk (some (fun _ _ => ([7], 1, 1))) []).rasterize_char
          'a' 1090519040).1)
    ∧ ((((FontRenderer.mk (some (fun _ _ => ([7], 1, 1))) []).rasterize_char
          'a' 1090519040).2).rasterize_char 'a' 1090519040)
      = ((((FontRenderer.mk (some (fun _ _ => ([7], 1, 1))) []).rasterize_char
            'a' 1090519040).1),
         (((FontRenderer.mk (some (fun _ _ => ([7], 1, 1))) []).rasterize_char
            'a' 1090519040).2)) :=
  rasterize_memoized (FontRenderer.mk (some (fun _ _ => ([7], 1, 1))) [])
    (fun _ _ => ([7], 1, 1)) 'a' 1090519040 rfl

/-- C7: the theme option carried by `Args` has no influence on the rendered
output: two runs over the same document, render width, glyph source and image
collaborator produce identical output for any two theme values. -/
theorem theme_noninterference (fm : FontModel) (load : List Char → Option ImageData)
    (content : List Char) (file : Option (List Char)) (useStdin : Bool) (width : Nat)
    (theme1 theme2 : List Char) :
    mainRender ⟨file, useStdin, width, theme1⟩ fm load content
      = mainRender ⟨file, useStdin, width, theme2⟩ fm load content := rfl

/-- C8: when the image collaborator fails to load or decode, the processor
returns exactly the placeholder string with the path substituted verbatim. -/
theorem image_failure_placeholder (load : List Char → Option ImageData)
    (path : List Char) (h : load path = none) :
    process_image load path = (("[Failed to load image: ").toList) ++ path ++ [']'] := by
  rw [process_image, h]

theorem image_failure_placeholder_witness :
    process_image (fun _ => none) (("missing.png").toList)
      = (("[Failed to load image: ").toList) ++ (("missing.png").toList) ++ [']'] :=
  image_failure_placeholder (fun _ => none) (("missing.png").toList) rfl

/-- C5 counterexample: with the concrete glyph source `sampleFM` the first
bullet line is the 5 characters of a top-half block and four spaces, whose
character length is 5 but whose UTF-8 byte length is 7; the implementation
pads the bullet column to 7, not to the character length 5, so the rendered
item differs from the spec-described one. -/
theorem list_item_width_counterexample :
    (rustLines (render_line_pixels sampleFM 800 bulletText)).head? = some (("▀    ").toList)
    ∧ (("▀    ").toList).length = 5
    ∧ render_list_item_claimed sampleFM 800 ['a'] = ("▀    ▀\n").toList
    ∧ render_list_item sampleFM 800 ['a'] = ("▀      ▀\n").toList
    ∧ render_list_item sampleFM 800 ['a'] ≠ render_list_item_claimed sampleFM 800 ['a'] := by
  refine ⟨by decide, by decide, by decide, by decide, by decide⟩

theorem splitOnChar_ne_nil (sep : Char) : ∀ s : List Char, splitOnChar sep s ≠ [] := by
  intro s
  cases s with
  | nil => simp [splitOnChar]
  | cons c cs =>
    cases hs : splitOnChar sep cs with
    | nil => simp [splitOnChar, hs]
    | cons seg segs =>
      simp only [splitOnChar, hs]
      split <;> simp

theorem splitOnChar_sep_not_mem (sep : Char) :
    ∀ s : List Char, ∀ seg ∈ splitOnChar sep s, sep ∉ seg := by
  intro s
  induction s with
  | nil =>
    intro seg hseg
    simp [splitOnChar] at hseg
    simp [hseg]
  | cons c cs ih =>
    intro seg hseg
    cases hs : splitOnChar sep cs with
    | nil => exact absurd hs (splitOnChar_ne_nil sep cs)
    | cons seg0 segs =>
      simp only [splitOnChar, hs] at hseg
      by_cases hc : c = sep
      · rw [if_pos hc] at hseg
        rcases List.mem_cons.mp hseg with heq | hmem
        · subst heq; simp
        · exact ih seg (hs ▸ hmem)
      · rw [if_neg hc] at hseg
        rcases List.mem_cons.mp hseg with heq | hmem
        · subst heq
          intro hmem2
          rcases List.mem_cons.mp hmem2 with heq2 | hmem3
          · exact hc heq2.symm
          · exact ih seg0 (hs ▸ List.mem_cons_self seg0 segs) hmem3
        · exact ih seg (hs ▸ List.mem_cons_of_mem seg0 hmem)

theorem splitOnChar_subset (sep : Char) :
    ∀ s : List Char, ∀ seg ∈ splitOnChar sep s, ∀ c ∈ seg, c ∈ s := by
  intro s
  induction s with
  | nil =>
    intro seg hseg
    simp [splitOnChar] at hseg
    simp [hseg]
  | cons a cs ih =>
    intro seg hseg c hc
    cases hs : splitOnChar sep cs with
    | nil => exact absurd hs (splitOnChar_ne_nil sep cs)
    | cons seg0 segs =>
      simp only [splitOnChar, hs] at hseg
      by_cases ha : a = sep
      · rw [if_pos ha] at hseg
        rcases List.mem_cons.mp hseg with heq | hmem
        · subst heq; simp at hc
        · exact List.mem_cons_of_mem a (ih seg (hs ▸ hmem) c hc)
      · rw [if_neg ha] at hseg
        rcases List.mem_cons.mp hseg with heq | hmem
        · subst heq
          rcases List.mem_cons.mp hc with heq2 | hmem2
          · subst heq2; exact List.mem_cons_self c cs
          · exact List.mem_cons_of_mem a
              (ih seg0 (hs ▸ List.mem_cons_self seg0 segs) c hmem2)
        · exact List.mem_cons_of_mem a
            (ih seg (hs ▸ List.mem_cons_of_mem seg0 hmem) c hc)

theorem splitOnChar_word (sep : Char) :
    ∀ (r rest : List Char), (∀ c ∈ r, ¬ c = sep) →
      splitOnChar sep (r ++ sep :: rest) = r :: splitOnChar sep rest := by
  intro r
  induction r with
  | nil =>
    intro rest _
    cases heq : splitOnChar sep rest with
    | nil => exact absurd heq (splitOnChar_ne_nil sep rest)
    | cons seg segs => simp [splitOnChar, heq]
  | cons a r' ih =>
    intro rest hr
    have ha : ¬ a = sep := hr a (List.mem_cons_self a r')
    rw [List.cons_append]
    simp only [splitOnChar, ih rest (fun c hc => hr c (List.mem_cons_of_mem a hc)), if_neg ha]

theorem stripTrailingCR_subset (l : List Char) : ∀ c ∈ stripTrailingCR l, c ∈ l := by
  intro c hc
  rw [stripTrailingCR] at hc
  split at hc
  · exact List.dropLast_subset l hc
  · exact hc

theorem stripTrailingCR_eq_self (l : List Char) (h : '\r' ∉ l) : stripTrailingCR l = l := by
  rw [stripTrailingCR]
  split
  · next heq => exact absurd (List.mem_of_mem_getLast? heq) h
  · rfl

theorem rustLines_no_nl (s : List Char) : ∀ seg ∈ rustLines s, '\n' ∉ seg := by
  intro seg hseg
  rw [rustLines] at hseg
  obtain ⟨seg', hseg', heq⟩ := List.mem_map.mp hseg
  subst heq
  intro hmem
  have hseg'' : seg' ∈ splitOnChar '\n' s := by
    by_cases hlast : (splitOnChar '\n' s).getLast? = some []
    · rw [if_pos hlast] at hseg'
      exact List.dropLast_subset _ hseg'
    · rw [if_neg hlast] at hseg'
      exact hseg'
  exact splitOnChar_sep_not_mem '\n' s seg' hseg'' (stripTrailingCR_subset seg' _ hmem)

theorem rustLines_subset (s : List Char) : ∀ seg ∈ rustLines s, ∀ c ∈ seg, c ∈ s := by
  intro seg hseg c hc
  rw [rustLines] at hseg
  obtain ⟨seg', hseg', heq⟩ := List.mem_map.mp hseg
  subst heq
  have hseg'' : seg' ∈ splitOnChar '\n' s := by
    by_cases hlast : (splitOnChar '\n' s).getLast? = some []
    · rw [if_pos hlast] at hseg'
      exact List.dropLast_subset _ hseg'
    · rw [if_neg hlast] at hseg'
      exact hseg'
  exact splitOnChar_subset '\n' s seg' hseg'' c (stripTrailingCR_subset seg' c hc)

theorem splitOnChar_flatten_rows :
    ∀ rows : List (List Char), (∀ r ∈ rows, '\n' ∉ r) →
      splitOnChar '\n' ((rows.map (fun r => r ++ ['\n'])).flatten) = rows ++ [[]] := by
  intro rows
  induction rows with
  | nil => intro _; rfl
  | cons r rs ih =>
    intro hrows
    rw [List.map_cons, List.flatten_cons, List.append_assoc, List.singleton_append,
      splitOnChar_word '\n' r _
        (fun c hc hceq => hrows r (List.mem_cons_self r rs) (hceq ▸ hc)),
      ih (fun r' hr' => hrows r' (List.mem_cons_of_mem r hr'))]
    rfl

theorem rustLines_flatten_rows (rows : List (List Char)) (hrows : ∀ r ∈ rows, '\n' ∉ r) :
    rustLines ((rows.map (fun r => r ++ ['\n'])).flatten) = rows.map stripTrailingCR := by
  rw [rustLines, splitOnChar_flatten_rows rows hrows]
  rw [if_pos (List.getLast?_concat rows), List.dropLast_concat]

theorem render_line_pixels_chars (fm : FontModel) (width : Nat) (t : List Char) :
    ∀ c ∈ render_line_pixels fm width t,
      c ∈ t ∨ c = '█' ∨ c = '▀' ∨ c = '▄' ∨ c = ' ' ∨ c = '\n' := by
  intro c hc
  rw [render_line_pixels] at hc
  split at hc
  · exact Or.inl hc
  · exact Or.inr (quantize_chars _ _ _ c hc)

theorem joinWords_chars : ∀ (ws : List (List Char)), ∀ c ∈ joinWords ws,
    (∃ w ∈ ws, c ∈ w) ∨ c = ' ' := by
  intro ws
  induction ws with
  | nil => intro c hc; simp [joinWords] at hc
  | cons w rest ih =>
    intro c hc
    cases rest with
    | nil =>
      rw [joinWords] at hc
      exact Or.inl ⟨w, List.mem_cons_self w [], hc⟩
    | cons x xs =>
      have hj : joinWords (w :: x :: xs) = w ++ ' ' :: joinWords (x :: xs) := rfl
      rw [hj] at hc
      rcases List.mem_append.mp hc with hw | hrest
      · exact Or.inl ⟨w, List.mem_cons_self w _, hw⟩
      · rcases List.mem_cons.mp hrest with heq | hmem
        · exact Or.inr heq
        · rcases ih c hmem with ⟨w', hw', hcw'⟩ | hsp
          · exact Or.inl ⟨w', List.mem_cons_of_mem w hw', hcw'⟩
          · exact Or.inr hsp

theorem render_text_no_cr (fm : FontModel) (width : Nat) (t : List Char)
    (hfont : fm.hasFont = true) : '\r' ∉ render_text fm width t := by
  intro hmem
  rw [render_text] at hmem
  rw [hfont] at hmem
  simp only [Bool.true_eq_false, if_false] at hmem
  split at hmem
  · simp at hmem
  · obtain ⟨block, hblockmem, hcin⟩ := List.mem_flatten.mp hmem
    obtain ⟨line, hline, hlineeq⟩ := List.mem_map.mp hblockmem
    subst hlineeq
    rcases render_line_pixels_chars fm width (joinWords line) '\r' hcin with hjw | h5
    · rcases joinWords_chars line '\r' hjw with ⟨w, hw, hcw⟩ | hsp
      · have hwmem : w ∈ (wrapText fm.advanceOf width t).flatten :=
          List.mem_flatten.mpr ⟨line, hline, hw⟩
        rw [wrapText, wrapWords_flatten] at hwmem
        simp only [List.nil_append] at hwmem
        have := (splitWS_words t [] (by simp) w hwmem).2 '\r' hcw
        simp at this
      · simp at hsp
    · simp at h5

theorem map_range_getD {α : Type} (f : Nat → α) (n i : Nat) (d : α) (hi : i < n) :
    ((List.range n).map f).getD i d = f i := by
  rw [List.getD_eq_getElem?_getD, List.getElem?_map, List.getElem?_range hi]
  rfl

theorem foldl_padrow_eq_flatten (f g : Nat → List Char) :
    ∀ (l : List Nat) (init : List Char),
      l.foldl (fun acc i => acc ++ f i ++ g i ++ ['\n']) init
        = init ++ (l.map (fun i => (f i ++ g i) ++ ['\n'])).flatten := by
  intro l
  induction l with
  | nil => intro init; simp
  | cons b bs ih =>
    intro init
    rw [List.foldl_cons, ih, List.map_cons, List.flatten_cons]
    simp [List.append_assoc]

theorem rustLines_flatten_map_rows (rowFn : Nat → List Char) (n : Nat)
    (hrows : ∀ i < n, '\n' ∉ rowFn i) :
    rustLines (((List.range n).map (fun i => rowFn i ++ ['\n'])).flatten)
      = (List.range n).map (fun i => stripTrailingCR (rowFn i)) := by
  have h1 : (List.range n).map (fun i => rowFn i ++ ['\n'])
      = ((List.range n).map rowFn).map (fun r => r ++ ['\n']) := by
    rw [List.map_map]
    rfl
  have h2 : ∀ r ∈ (List.range n).map rowFn, '\n' ∉ r := by
    intro r hr
    obtain ⟨i, hi, hieq⟩ := List.mem_map.mp hr
    exact hieq ▸ hrows i (List.mem_range.mp hi)
  rw [h1, rustLines_flatten_rows _ h2, List.map_map]
  rfl

theorem render_list_item_rows (fm : FontModel) (width : Nat) (item : List Char) :
    render_list_item fm width item
      = ((List.range (max (bulletBlock fm width).length
            (contentBlock fm width item).length)).map
          (fun i => listItemRow fm width item i ++ ['\n'])).flatten := by
  rw [render_list_item, foldl_padrow_eq_flatten, List.nil_append]
  rfl

theorem list_item_row_chars (fm : FontModel) (width : Nat) (item : List Char)
    (hfont : fm.hasFont = true) (i : Nat) (ch : Char)
    (hch : ch ∈ listItemRow fm width item i) :
    ch ≠ '\n' ∧ ch ≠ '\r' := by
  have hbullet : ∀ c ∈ (bulletBlock fm width).getD i [], c ≠ '\n' ∧ c ≠ '\r' := by
    intro c hc
    by_cases hi : i < (bulletBlock fm width).length
    · have hmem : (bulletBlock fm width).getD i [] ∈ bulletBlock fm width := by
        rw [List.getD_eq_getElem _ _ hi]
        exact List.getElem_mem hi
      rw [bulletBlock] at hmem
      refine ⟨fun heq => rustLines_no_nl _ _ hmem (heq ▸ hc), fun heq => ?_⟩
      have hcr : '\r' ∈ render_line_pixels fm width bulletText :=
        rustLines_subset _ _ hmem '\r' (heq ▸ hc)
      rcases render_line_pixels_chars fm width bulletText '\r' hcr with hb | h5
      · simp [bulletText] at hb
      · simp at h5
    · rw [List.getD_eq_default _ _ (Nat.le_of_not_lt hi)] at hc
      simp at hc
  have hcontent : ∀ c ∈ (contentBlock fm width item).getD i [], c ≠ '\n' ∧ c ≠ '\r' := by
    intro c hc
    by_cases hi : i < (contentBlock fm width item).length
    · have hmem : (contentBlock fm width item).getD i [] ∈ contentBlock fm width item := by
        rw [List.getD_eq_getElem _ _ hi]
        exact List.getElem_mem hi
      rw [contentBlock] at hmem
      refine ⟨fun heq => rustLines_no_nl _ _ hmem (heq ▸ hc), fun heq => ?_⟩
      exact render_text_no_cr fm width item hfont
        (rustLines_subset _ _ hmem '\r' (heq ▸ hc))
    · rw [List.getD_eq_default _ _ (Nat.le_of_not_lt hi)] at hc
      simp at hc
  rw [listItemRow] at hch
  rcases List.mem_append.mp hch with hpad | hcont
  · rcases List.mem_append.mp hpad with hb | hrep
    · exact hbullet ch hb
    · have := (List.mem_replicate.mp hrep).2
      subst this
      exact ⟨by decide, by decide⟩
  · exact hcontent ch hcont

/-- C5 (amended): for a loaded glyph source the rendered list item has
`max(bullet lines, content lines)` output lines, and line `i` is the `i`-th
bullet line (blank when missing) padded with spaces to the fixed bullet
column width, followed by the `i`-th content line (blank when missing) — the
column width being the UTF-8 byte length of the first bullet line (not its
character length), with default 2. -/
theorem list_item_shape (fm : FontModel) (width : Nat) (item : List Char)
    (hfont : fm.hasFont = true) :
    (rustLines (render_list_item fm width item)).length
        = max (bulletBlock fm width).length (contentBlock fm width item).length
    ∧ (∀ i, i < max (bulletBlock fm width).length (contentBlock fm width item).length →
        (rustLines (render_list_item fm width item)).getD i []
          = padTo ((bulletBlock fm width).getD i []) (bulletColWidth fm width)
            ++ (contentBlock fm width item).getD i []) := by
  have hlines : rustLines (render_list_item fm width item)
      = (List.range (max (bulletBlock fm width).length
          (contentBlock fm width item).length)).map (listItemRow fm width item) := by
    rw [render_list_item_rows fm width item,
      rustLines_flatten_map_rows (listItemRow fm width item) _
        (fun i _ hnl => (list_item_row_chars fm width item hfont i '\n' hnl).1 rfl)]
    apply List.map_congr_left
    intro i _
    exact stripTrailingCR_eq_self _
      (fun hcr => (list_item_row_chars fm width item hfont i '\r' hcr).2 rfl)
  constructor
  · rw [hlines, List.length_map, List.length_range]
  · intro i hi
    rw [hlines, map_range_getD _ _ i _ hi]
    rfl

theorem list_item_shape_witness :
    (rustLines (render_list_item sampleFM 800 ['a'])).length
        = max (bulletBlock sampleFM 800).length (contentBlock sampleFM 800 ['a']).length
    ∧ (rustLines (render_list_item sampleFM 800 ['a'])).getD 0 []
        = padTo ((bulletBlock sampleFM 800).getD 0 []) (bulletColWidth sampleFM 800)
          ++ (contentBlock sampleFM 800 ['a']).getD 0 [] :=
  ⟨(list_item_shape sampleFM 800 ['a'] (by decide)).1,
   (list_item_shape sampleFM 800 ['a'] (by decide)).2 0 (by decide)⟩

end Mdterm
